import Mathlib

/-!
Verification of the `mkcmt` conventional-commit parser and changelog registry.

The Rust sources (`src/commit.rs`, `src/changelog.rs`) are shallowly embedded
here.  Strings are modelled as `List Char`; Rust's byte indices returned by
`str::find` agree in order with char indices (the searched characters are all
one byte in UTF-8), so the char-level model is faithful.  Rust's
`Result<_, String>` error messages are modelled by the enumeration `ParseErr`
(one constructor per distinct message string in the source), and a Rust panic
(an out-of-order slice index) is modelled by the explicit result `panicked`.
-/

namespace Mkcmt

/-- Rust `char::is_whitespace` (the Unicode White_Space property), used by
`str::trim`, `trim_start` and `trim_end`. -/
def isRustWhitespace (c : Char) : Bool :=
  c = ' ' || c = '\t' || c = '\n' || c.val = 0x0B || c.val = 0x0C || c = '\r' ||
  c.val = 0x85 || c.val = 0xA0 || c.val = 0x1680 ||
  (0x2000 ≤ c.val && c.val ≤ 0x200A) ||
  c.val = 0x2028 || c.val = 0x2029 || c.val = 0x202F || c.val = 0x205F ||
  c.val = 0x3000

/-- Rust `str::trim_start`: drop leading whitespace. -/
def trimStart (l : List Char) : List Char := l.dropWhile isRustWhitespace

/-- Rust `str::trim_end`: drop trailing whitespace (recursive formulation). -/
def trimEnd : List Char → List Char
  | [] => []
  | c :: rest =>
    match trimEnd rest with
    | [] => if isRustWhitespace c then [] else [c]
    | r => c :: r

/-- Rust `str::trim`: drop whitespace at both ends. -/
def trim (l : List Char) : List Char := trimEnd (trimStart l)

/-- Rust `str::find(char)`: index of the first occurrence of a character. -/
def findIdx (c : Char) : List Char → Option Nat
  | [] => none
  | a :: rest => if a = c then some 0 else (findIdx c rest).map (· + 1)

/-- Rust `input.split("\n\n")`: split on each leftmost non-overlapping
occurrence of two consecutive newline characters.  On the empty string the
Rust iterator yields one empty part, matching `splitNN [] = [[]]`. -/
def splitNN : List Char → List (List Char)
  | [] => [[]]
  | [c] => [[c]]
  | a :: b :: rest =>
    if a = '\n' ∧ b = '\n' then
      [] :: splitNN rest
    else
      match splitNN (b :: rest) with
      | [] => [[a]]
      | p :: ps => (a :: p) :: ps

/-- The distinct error values produced by `CommitMessage::parse`
(`Result<_, String>` in Rust; each constructor stands for one exact message
string of the source). -/
inductive ParseErr where
  /-- Rust message: `Empty commit message` -/
  | emptyInput : ParseErr
  /-- Rust message: `Missing ':' in header` -/
  | missingColon : ParseErr
  /-- Rust message: `Missing closing ')' in header` -/
  | missingClosingParen : ParseErr
  /-- Rust message: `Empty scope in header` -/
  | emptyScope : ParseErr
deriving DecidableEq

/-- The record built by a successful parse (`struct CommitMessage`). -/
structure CommitMessage where
  commit_type : List Char
  scope : Option (List Char)
  description : List Char
  body : Option (List Char)
  footer : Option (List Char)
  breaking : Bool
deriving DecidableEq

/-- Result of `CommitMessage::parse_header`: a `(commit_type, scope,
description)` triple, an error, or a Rust panic. -/
inductive HeaderResult where
  | ok : List Char → Option (List Char) → List Char → HeaderResult
  | err : ParseErr → HeaderResult
  | panicked : HeaderResult
deriving DecidableEq

/-- Result of `CommitMessage::parse`: a record, an error, or a Rust panic. -/
inductive ParseResult where
  | ok : CommitMessage → ParseResult
  | err : ParseErr → ParseResult
  | panicked : ParseResult
deriving DecidableEq

/-- `CommitMessage::parse_header` (src/commit.rs lines 169-188).  The Rust
slice `meta[start + 1..end]` panics when `start + 1 > end`, which happens
exactly when the first `)` of `meta` lies before its first `(`; the guard
below models that panic. -/
def parse_header (header : List Char) : HeaderResult :=
  match findIdx ':' header with
  | none => HeaderResult.err ParseErr.missingColon
  | some colon_index =>
    let meta := header.take colon_index
    let description := trim ((header.drop colon_index).drop 1)
    match findIdx '(' meta with
    | none => HeaderResult.ok (trim meta) none description
    | some s =>
      match findIdx ')' meta with
      | none => HeaderResult.err ParseErr.missingClosingParen
      | some e =>
        if s + 1 ≤ e then
          let scope := trim ((meta.take e).drop (s + 1))
          if scope = [] then HeaderResult.err ParseErr.emptyScope
          else HeaderResult.ok (trim (meta.take s)) (some scope) description
        else HeaderResult.panicked

/-- The body computed from `parts[1..]` (src/commit.rs lines 141-145). -/
def mkBody (rest : List (List Char)) : Option (List Char) :=
  match rest with
  | [] => none
  | p1 :: _ => if trim p1 = [] then none else some (trim p1)

/-- The footer and breaking flag computed from `parts[1..]`
(src/commit.rs lines 148-154): `parts[2]` is `rest[1]`. -/
def mkFooter (rest : List (List Char)) : Option (List Char) × Bool :=
  match rest with
  | _ :: p2 :: _ =>
    if trim p2 = [] then (none, false)
    else (some (trim p2), (trim p2).contains '!')
  | _ => (none, false)

/-- `CommitMessage::parse` (src/commit.rs lines 128-164). -/
def parse (input : List Char) : ParseResult :=
  match splitNN input with
  | [] => ParseResult.err ParseErr.emptyInput
  | p0 :: rest =>
    match parse_header (trim p0) with
    | HeaderResult.err e => ParseResult.err e
    | HeaderResult.panicked => ParseResult.panicked
    | HeaderResult.ok t sc d =>
      ParseResult.ok ⟨t, sc, d, mkBody rest, (mkFooter rest).1, (mkFooter rest).2⟩

/-- Convert a Lean string literal to the char-list model. -/
def toL (s : String) : List Char := s.data

/-- Canonical re-serialization of a parsed header, following the spec text:
`type(scope): description`, or `type: description` when there is no scope. -/
def reserialize (t : List Char) (sc : Option (List Char)) (d : List Char) :
    List Char :=
  match sc with
  | none => t ++ [':', ' '] ++ d
  | some s => t ++ ['('] ++ s ++ [')', ':', ' '] ++ d

/-- `noNNb l = true` iff `l` has no two consecutive newline characters, i.e.
no occurrence of the Rust separator pattern `\n\n`. -/
def noNNb : List Char → Bool
  | [] => true
  | [_] => true
  | a :: b :: rest => if a = '\n' ∧ b = '\n' then false else noNNb (b :: rest)

/-- `TYPES` (src/changelog.rs lines 4-12). -/
def TYPES : List String := ["feat", "fix", "docs", "style", "refactor", "test", "chore"]

/-- `SCOPES` (src/changelog.rs lines 15-22). -/
def SCOPES : List String := ["core", "ui", "api", "build", "docs", "tests"]

/-- `BREAKING_CHANGE_MARKER` (src/changelog.rs line 25). -/
def BREAKING_CHANGE_MARKER : String := "!"

/-- `struct Changelog` (src/changelog.rs lines 29-33). -/
structure Changelog where
  types : List String
  scopes : List String
  breaking_marker : String
deriving DecidableEq

/-- `get_changelog` (src/changelog.rs lines 36-42). -/
def get_changelog : Changelog :=
  ⟨TYPES, SCOPES, BREAKING_CHANGE_MARKER⟩

/-! ### Lemmas about `findIdx` -/

theorem findIdx_eq_none_of_not_mem {c : Char} {l : List Char} (h : c ∉ l) :
    findIdx c l = none := by
  induction l with
  | nil => rfl
  | cons a t ih =>
    rw [findIdx]
    rw [if_neg (by intro hac; exact h (hac ▸ List.mem_cons_self a t))]
    rw [ih (fun hm => h (List.mem_cons_of_mem a hm))]
    rfl

theorem findIdx_append_cons {c : Char} {a : List Char} (b : List Char)
    (h : c ∉ a) : findIdx c (a ++ c :: b) = some a.length := by
  induction a with
  | nil => simp [findIdx]
  | cons x t ih =>
    have hxc : ¬ x = c := fun hx => h (hx ▸ List.mem_cons_self x t)
    rw [List.cons_append, findIdx, if_neg hxc,
      ih (fun hm => h (List.mem_cons_of_mem x hm))]
    rfl

theorem not_mem_take_of_findIdx {c : Char} {l : List Char} {i : Nat}
    (h : findIdx c l = some i) : c ∉ l.take i := by
  induction l generalizing i with
  | nil => simp
  | cons a t ih =>
    rw [findIdx] at h
    by_cases hac : a = c
    · rw [if_pos hac] at h
      injection h with h
      subst h
      simp
    · rw [if_neg hac] at h
      cases hf : findIdx c t with
      | none => rw [hf] at h; exact absurd h (by simp)
      | some j =>
        rw [hf] at h
        injection h with h
        subst h
        intro hm
        rcases List.mem_cons.mp (by simpa using hm) with h1 | h2
        · exact hac h1.symm
        · exact ih hf h2

/-! ### Lemmas about `trimStart`, `trimEnd`, `trim` -/

theorem head_not_ws_of_trimStart {l : List Char} {c : Char} {r : List Char}
    (h : trimStart l = c :: r) : isRustWhitespace c = false := by
  induction l with
  | nil => simp [trimStart] at h
  | cons a t ih =>
    by_cases hw : isRustWhitespace a
    · rw [trimStart, List.dropWhile_cons_of_pos hw] at h
      exact ih h
    · rw [trimStart, List.dropWhile_cons_of_neg hw] at h
      injection h with h1 _
      subst h1
      simpa using hw

theorem trimStart_cons_not_ws {c : Char} {l : List Char}
    (h : isRustWhitespace c = false) : trimStart (c :: l) = c :: l := by
  rw [trimStart, List.dropWhile_cons_of_neg (by simp [h])]

theorem trimStart_idem (l : List Char) : trimStart (trimStart l) = trimStart l := by
  cases hs : trimStart l with
  | nil => rfl
  | cons c r => exact trimStart_cons_not_ws (head_not_ws_of_trimStart hs)

theorem trimStart_decomp (l : List Char) : ∃ z, l = z ++ trimStart l :=
  ⟨l.takeWhile isRustWhitespace,
    (List.takeWhile_append_dropWhile isRustWhitespace l).symm⟩

theorem trimStart_append (a b : List Char) :
    trimStart (a ++ b) =
      if trimStart a = [] then trimStart b else trimStart a ++ b := by
  induction a with
  | nil => simp [trimStart]
  | cons x t ih =>
    by_cases hw : isRustWhitespace x
    · rw [List.cons_append, trimStart, List.dropWhile_cons_of_pos hw]
      rw [trimStart] at ih
      rw [ih]
      have hx : trimStart (x :: t) = trimStart t := by
        rw [trimStart, List.dropWhile_cons_of_pos hw]; rfl
      rw [hx]
    · have hx : trimStart (x :: t) = x :: t := trimStart_cons_not_ws (by simpa using hw)
      rw [List.cons_append, trimStart_cons_not_ws (by simpa using hw), hx]
      rw [if_neg (by simp)]
      rfl

theorem trimEnd_cons_nil {l : List Char} (c : Char) (h : trimEnd l = []) :
    trimEnd (c :: l) = if isRustWhitespace c then [] else [c] := by
  rw [trimEnd, h]

theorem trimEnd_cons_ne {l : List Char} (c : Char) (h : trimEnd l ≠ []) :
    trimEnd (c :: l) = c :: trimEnd l := by
  rw [trimEnd]
  cases hr : trimEnd l with
  | nil => exact absurd hr h
  | cons x r => rfl

theorem trimEnd_append (a b : List Char) :
    trimEnd (a ++ b) = if trimEnd b = [] then trimEnd a else a ++ trimEnd b := by
  induction a with
  | nil =>
    by_cases hb : trimEnd b = [] <;> simp [hb, trimEnd]
  | cons x t ih =>
    by_cases hb : trimEnd b = []
    · rw [if_pos hb] at ih ⊢
      by_cases ht : trimEnd t = []
      · rw [List.cons_append, trimEnd_cons_nil x (ih.trans ht), trimEnd_cons_nil x ht]
      · rw [List.cons_append, trimEnd_cons_ne x (by rw [ih]; exact ht), ih,
          trimEnd_cons_ne x ht]
    · rw [if_neg hb] at ih ⊢
      have hne : trimEnd (t ++ b) ≠ [] := by
        rw [ih]; simp [hb]
      rw [List.cons_append, trimEnd_cons_ne x hne, ih, List.cons_append]

theorem trimEnd_idem (l : List Char) : trimEnd (trimEnd l) = trimEnd l := by
  induction l with
  | nil => rfl
  | cons c t ih =>
    by_cases ht : trimEnd t = []
    · rw [trimEnd_cons_nil c ht]
      by_cases hw : isRustWhitespace c
      · rw [if_pos hw]; rfl
      · rw [if_neg hw, @trimEnd_cons_nil [] c rfl, if_neg hw]
    · rw [trimEnd_cons_ne c ht, trimEnd_cons_ne c (by rw [ih]; exact ht), ih]

theorem trimEnd_decomp (l : List Char) : ∃ z, l = trimEnd l ++ z := by
  induction l with
  | nil => exact ⟨[], rfl⟩
  | cons c t ih =>
    obtain ⟨z, hz⟩ := ih
    by_cases ht : trimEnd t = []
    · rw [trimEnd_cons_nil c ht]
      by_cases hw : isRustWhitespace c
      · exact ⟨c :: t, by rw [if_pos hw]; rfl⟩
      · exact ⟨t, by rw [if_neg hw]; rfl⟩
    · exact ⟨z, by rw [trimEnd_cons_ne c ht, List.cons_append, ← hz]⟩

theorem trim_idem (l : List Char) : trim (trim l) = trim l := by
  rw [trim, trim]
  have h1 : trimStart (trimEnd (trimStart l)) = trimEnd (trimStart l) := by
    cases he : trimEnd (trimStart l) with
    | nil => rfl
    | cons x r =>
      obtain ⟨z, hz⟩ := trimEnd_decomp (trimStart l)
      rw [he] at hz
      exact trimStart_cons_not_ws (head_not_ws_of_trimStart hz)
  rw [h1, trimEnd_idem]

theorem length_trimEnd_le (l : List Char) : (trimEnd l).length ≤ l.length := by
  obtain ⟨z, hz⟩ := trimEnd_decomp l
  have h := congrArg List.length hz
  rw [List.length_append] at h
  omega

theorem length_trimStart_le (l : List Char) : (trimStart l).length ≤ l.length := by
  obtain ⟨z, hz⟩ := trimStart_decomp l
  have h := congrArg List.length hz
  rw [List.length_append] at h
  omega

theorem trim_eq_self_parts {l : List Char} (h : trim l = l) :
    trimStart l = l ∧ trimEnd l = l := by
  have hlen : (trimStart l).length = l.length := by
    have h1 : l.length ≤ (trimStart l).length := by
      calc l.length = (trim l).length := by rw [h]
        _ ≤ (trimStart l).length := length_trimEnd_le _
    exact Nat.le_antisymm (length_trimStart_le l) h1
  have hs : trimStart l = l := by
    obtain ⟨z, hz⟩ := trimStart_decomp l
    have hzlen : z.length = 0 := by
      have := congrArg List.length hz
      rw [List.length_append, hlen] at this
      omega
    rw [List.eq_nil_of_length_eq_zero hzlen] at hz
    exact hz.symm
  refine ⟨hs, ?_⟩
  rw [← hs]
  rw [trim, hs] at h
  rw [hs, h]

theorem mem_of_mem_trimEnd {x : Char} {l : List Char} (h : x ∈ trimEnd l) :
    x ∈ l := by
  obtain ⟨z, hz⟩ := trimEnd_decomp l
  rw [hz]
  exact List.mem_append_left z h

theorem mem_of_mem_trimStart {x : Char} {l : List Char} (h : x ∈ trimStart l) :
    x ∈ l := by
  obtain ⟨z, hz⟩ := trimStart_decomp l
  rw [hz]
  exact List.mem_append_right z h

theorem mem_of_mem_trim {x : Char} {l : List Char} (h : x ∈ trim l) : x ∈ l :=
  mem_of_mem_trimStart (mem_of_mem_trimEnd h)

theorem mem_of_mem_take {x : Char} {l : List Char} {n : Nat}
    (h : x ∈ l.take n) : x ∈ l := by
  have := List.take_append_drop n l
  rw [← this]
  exact List.mem_append_left _ h

theorem mem_of_mem_drop {x : Char} {l : List Char} {n : Nat}
    (h : x ∈ l.drop n) : x ∈ l := by
  have := List.take_append_drop n l
  rw [← this]
  exact List.mem_append_right _ h

/-! ### Absence of the section separator, and lemmas about `splitNN` -/

theorem noNNb_cons₂ (a b : Char) (rest : List Char) :
    noNNb (a :: b :: rest) =
      if a = '\n' ∧ b = '\n' then false else noNNb (b :: rest) := rfl

theorem splitNN_cons₂ (a b : Char) (rest : List Char) :
    splitNN (a :: b :: rest) =
      if a = '\n' ∧ b = '\n' then [] :: splitNN rest
      else match splitNN (b :: rest) with
        | [] => [[a]]
        | p :: ps => (a :: p) :: ps := rfl

theorem noNNb_append_split {a b : List Char} (h : noNNb (a ++ b) = true) :
    noNNb a = true ∧ noNNb b = true := by
  induction a with
  | nil => exact ⟨rfl, h⟩
  | cons y t ih =>
    cases t with
    | nil =>
      cases b with
      | nil => exact ⟨rfl, rfl⟩
      | cons x r =>
        rw [List.singleton_append, noNNb_cons₂] at h
        by_cases hc : y = '\n' ∧ x = '\n'
        · rw [if_pos hc] at h; exact absurd h (by simp)
        · rw [if_neg hc] at h; exact ⟨rfl, h⟩
    | cons z t' =>
      rw [List.cons_append, List.cons_append, noNNb_cons₂] at h
      by_cases hc : y = '\n' ∧ z = '\n'
      · rw [if_pos hc] at h; exact absurd h (by simp)
      · rw [if_neg hc] at h
        rw [← List.cons_append] at h
        obtain ⟨h1, h2⟩ := ih h
        refine ⟨?_, h2⟩
        rw [noNNb_cons₂, if_neg hc]
        exact h1

theorem noNNb_append {b : List Char} (hb : noNNb b = true)
    (hhead : ∀ x r, b = x :: r → x ≠ '\n') :
    ∀ {a : List Char}, noNNb a = true → noNNb (a ++ b) = true := by
  intro a
  induction a with
  | nil => intro _; exact hb
  | cons y t ih =>
    intro ha
    cases t with
    | nil =>
      cases hb' : b with
      | nil => simpa [hb'] using ha
      | cons x r =>
        subst hb'
        rw [List.singleton_append, noNNb_cons₂,
          if_neg (fun hc => hhead x r rfl hc.2)]
        exact hb
    | cons z t' =>
      rw [noNNb_cons₂] at ha
      by_cases hc : y = '\n' ∧ z = '\n'
      · rw [if_pos hc] at ha; exact absurd ha (by simp)
      · rw [if_neg hc] at ha
        rw [List.cons_append, List.cons_append, noNNb_cons₂, if_neg hc,
          ← List.cons_append]
        exact ih ha

theorem noNNb_take {l : List Char} (h : noNNb l = true) (n : Nat) :
    noNNb (l.take n) = true := by
  have hd := List.take_append_drop n l
  rw [← hd] at h
  exact (noNNb_append_split h).1

theorem noNNb_drop {l : List Char} (h : noNNb l = true) (n : Nat) :
    noNNb (l.drop n) = true := by
  have hd := List.take_append_drop n l
  rw [← hd] at h
  exact (noNNb_append_split h).2

theorem noNNb_trimStart {l : List Char} (h : noNNb l = true) :
    noNNb (trimStart l) = true := by
  obtain ⟨z, hz⟩ := trimStart_decomp l
  rw [hz] at h
  exact (noNNb_append_split h).2

theorem noNNb_trimEnd {l : List Char} (h : noNNb l = true) :
    noNNb (trimEnd l) = true := by
  obtain ⟨z, hz⟩ := trimEnd_decomp l
  rw [hz] at h
  exact (noNNb_append_split h).1

theorem noNNb_trim {l : List Char} (h : noNNb l = true) :
    noNNb (trim l) = true :=
  noNNb_trimEnd (noNNb_trimStart h)

theorem splitNN_ne_nil (l : List Char) : splitNN l ≠ [] := by
  induction l using splitNN.induct with
  | case1 => simp [splitNN]
  | case2 c => simp [splitNN]
  | case3 a b rest h ih => rw [splitNN_cons₂, if_pos h]; simp
  | case4 a b rest h hnil ih => exact absurd hnil ih
  | case5 a b rest h p ps hs ih => rw [splitNN_cons₂, if_neg h, hs]; simp

theorem splitNN_head_decomp {l q : List Char} {qs : List (List Char)}
    (h : splitNN l = q :: qs) : ∃ z, l = q ++ z := by
  induction l using splitNN.induct generalizing q qs with
  | case1 =>
    rw [splitNN] at h
    injection h with h1 _
    exact ⟨[], by rw [← h1]; rfl⟩
  | case2 c =>
    rw [splitNN] at h
    injection h with h1 _
    exact ⟨[], by rw [← h1]; simp⟩
  | case3 a b rest hc ih =>
    rw [splitNN_cons₂, if_pos hc] at h
    injection h with h1 _
    exact ⟨a :: b :: rest, by rw [← h1]; rfl⟩
  | case4 a b rest hc hnil ih => exact absurd hnil (splitNN_ne_nil _)
  | case5 a b rest hc p ps hs ih =>
    rw [splitNN_cons₂, if_neg hc, hs] at h
    injection h with h1 _
    obtain ⟨z, hz⟩ := ih hs
    refine ⟨z, ?_⟩
    rw [← h1, List.cons_append, ← hz]

theorem splitNN_head_noNNb {l q : List Char} {qs : List (List Char)}
    (h : splitNN l = q :: qs) : noNNb q = true := by
  induction l using splitNN.induct generalizing q qs with
  | case1 =>
    rw [splitNN] at h
    injection h with h1 _
    rw [← h1]; rfl
  | case2 c =>
    rw [splitNN] at h
    injection h with h1 _
    rw [← h1]; rfl
  | case3 a b rest hc ih =>
    rw [splitNN_cons₂, if_pos hc] at h
    injection h with h1 _
    rw [← h1]; rfl
  | case4 a b rest hc hnil ih => exact absurd hnil (splitNN_ne_nil _)
  | case5 a b rest hc p ps hs ih =>
    rw [splitNN_cons₂, if_neg hc, hs] at h
    injection h with h1 _
    have hp : noNNb p = true := ih hs
    obtain ⟨z, hz⟩ := splitNN_head_decomp hs
    rw [← h1]
    cases hp' : p with
    | nil => rfl
    | cons x r =>
      rw [noNNb_cons₂]
      rw [hp', List.cons_append] at hz
      have hxb : x = b := by
        injection hz with hz1 _
        exact hz1.symm
      rw [if_neg (fun hcc => hc ⟨hcc.1, hxb ▸ hcc.2⟩)]
      rw [← hp']
      exact hp

theorem splitNN_eq_single {l : List Char} (h : noNNb l = true) :
    splitNN l = [l] := by
  induction l using splitNN.induct with
  | case1 => rfl
  | case2 c => rfl
  | case3 a b rest hc ih =>
    rw [noNNb_cons₂, if_pos hc] at h
    exact absurd h (by simp)
  | case4 a b rest hc hnil ih => exact absurd hnil (splitNN_ne_nil _)
  | case5 a b rest hc p ps hs ih =>
    rw [noNNb_cons₂, if_neg hc] at h
    have heq : splitNN (b :: rest) = [b :: rest] := ih h
    rw [splitNN_cons₂, if_neg hc, hs]
    rw [hs] at heq
    injection heq with he1 he2
    rw [he1, he2]

/-! ### Inversion of a successful `parse_header` -/

theorem parse_header_ok_shape {hd t : List Char} {sc : Option (List Char)}
    {d : List Char} (h : parse_header hd = HeaderResult.ok t sc d) :
    ∃ ci, findIdx ':' hd = some ci ∧ d = trim ((hd.drop ci).drop 1) ∧
      ((findIdx '(' (hd.take ci) = none ∧ t = trim (hd.take ci) ∧ sc = none) ∨
       (∃ s e, findIdx '(' (hd.take ci) = some s ∧
         findIdx ')' (hd.take ci) = some e ∧ s + 1 ≤ e ∧
         t = trim ((hd.take ci).take s) ∧
         sc = some (trim (((hd.take ci).take e).drop (s + 1))) ∧
         trim (((hd.take ci).take e).drop (s + 1)) ≠ [])) := by
  unfold parse_header at h
  simp only at h
  split at h
  · exact HeaderResult.noConfusion h
  · rename_i ci hci
    split at h
    · rename_i hs
      injection h with h1 h2 h3
      exact ⟨ci, hci, h3.symm, Or.inl ⟨hs, h1.symm, h2.symm⟩⟩
    · rename_i s hs
      split at h
      · exact HeaderResult.noConfusion h
      · rename_i e he
        split at h
        · rename_i hle
          split at h
          · exact HeaderResult.noConfusion h
          · rename_i hsc
            injection h with h1 h2 h3
            exact ⟨ci, hci, h3.symm,
              Or.inr ⟨s, e, hs, he, hle, h1.symm, h2.symm, hsc⟩⟩
        · exact HeaderResult.noConfusion h

theorem not_mem_of_findIdx_eq_none {c : Char} {l : List Char}
    (h : findIdx c l = none) : c ∉ l := by
  induction l with
  | nil => simp
  | cons a t ih =>
    rw [findIdx] at h
    by_cases hac : a = c
    · rw [if_pos hac] at h; exact absurd h (by simp)
    · rw [if_neg hac] at h
      intro hm
      rcases List.mem_cons.mp hm with h1 | h2
      · exact hac h1.symm
      · cases hf : findIdx c t with
        | none => exact ih hf h2
        | some j => rw [hf] at h; exact Option.noConfusion h

/-- The invariants carried by a successful `parse_header`: the three returned
strings are trimmed, the commit type contains neither `:` nor `(`, and a
returned scope is non-empty and contains neither `:` nor `)` (and in that
case the commit type contains no `)` either). -/
theorem parse_header_ok_facts {hd t : List Char} {sc : Option (List Char)}
    {d : List Char} (h : parse_header hd = HeaderResult.ok t sc d) :
    trim t = t ∧ trim d = d ∧ ':' ∉ t ∧ '(' ∉ t ∧
      ∀ s0, sc = some s0 →
        trim s0 = s0 ∧ s0 ≠ [] ∧ ':' ∉ s0 ∧ ')' ∉ s0 ∧ ')' ∉ t := by
  obtain ⟨ci, hci, hdeq, hcase⟩ := parse_header_ok_shape h
  have hdtrim : trim d = d := by rw [hdeq, trim_idem]
  have hmc : ':' ∉ hd.take ci := not_mem_take_of_findIdx hci
  rcases hcase with ⟨hs, ht, hscn⟩ | ⟨s, e, hs, he, hle, ht, hsceq, hscne⟩
  · refine ⟨by rw [ht, trim_idem], hdtrim, ?_, ?_, ?_⟩
    · exact fun hm => hmc (mem_of_mem_trim (ht ▸ hm))
    · exact fun hm => not_mem_of_findIdx_eq_none hs (mem_of_mem_trim (ht ▸ hm))
    · intro s0 h0
      rw [hscn] at h0
      exact Option.noConfusion h0
  · have hpm : '(' ∉ (hd.take ci).take s := not_mem_take_of_findIdx hs
    have hcm : ')' ∉ (hd.take ci).take e := not_mem_take_of_findIdx he
    have htsub : ((hd.take ci).take e).take s = (hd.take ci).take s := by
      rw [List.take_take, Nat.min_eq_left (by omega)]
    refine ⟨by rw [ht, trim_idem], hdtrim, ?_, ?_, ?_⟩
    · exact fun hm =>
        hmc (mem_of_mem_take (mem_of_mem_trim (ht ▸ hm)))
    · exact fun hm => hpm (mem_of_mem_trim (ht ▸ hm))
    · intro s0 h0
      rw [hsceq] at h0
      injection h0 with h0
      refine ⟨by rw [← h0, trim_idem], by rw [← h0]; exact hscne, ?_, ?_, ?_⟩
      · intro hm
        rw [← h0] at hm
        exact hmc (mem_of_mem_take (mem_of_mem_drop (mem_of_mem_trim hm)))
      · intro hm
        rw [← h0] at hm
        exact hcm (mem_of_mem_drop (mem_of_mem_trim hm))
      · intro hm
        have hm' : ')' ∈ (hd.take ci).take s := mem_of_mem_trim (ht ▸ hm)
        rw [← htsub] at hm'
        exact hcm (mem_of_mem_take hm')

/-- A successful `parse_header` on a separator-free header yields
separator-free components. -/
theorem parse_header_ok_noNNb {hd t : List Char} {sc : Option (List Char)}
    {d : List Char} (h : parse_header hd = HeaderResult.ok t sc d)
    (hnn : noNNb hd = true) :
    noNNb t = true ∧ noNNb d = true ∧
      ∀ s0, sc = some s0 → noNNb s0 = true := by
  obtain ⟨ci, hci, hdeq, hcase⟩ := parse_header_ok_shape h
  have hdnn : noNNb d = true := by
    rw [hdeq]
    exact noNNb_trim (noNNb_drop (noNNb_drop hnn ci) 1)
  rcases hcase with ⟨hs, ht, hscn⟩ | ⟨s, e, hs, he, hle, ht, hsceq, hscne⟩
  · refine ⟨?_, hdnn, ?_⟩
    · rw [ht]; exact noNNb_trim (noNNb_take hnn ci)
    · intro s0 h0
      rw [hscn] at h0
      exact Option.noConfusion h0
  · refine ⟨?_, hdnn, ?_⟩
    · rw [ht]; exact noNNb_trim (noNNb_take (noNNb_take hnn ci) s)
    · intro s0 h0
      rw [hsceq] at h0
      injection h0 with h0
      rw [← h0]
      exact noNNb_trim (noNNb_drop (noNNb_take (noNNb_take hnn ci) e) (s + 1))

/-! ### Parsing the canonical re-serialization of a parsed header -/

theorem trimStart_append_not_ws {t : List Char} (hts : trimStart t = t)
    {x : Char} {z : List Char} (hx : isRustWhitespace x = false) :
    trimStart (t ++ x :: z) = t ++ x :: z := by
  rw [trimStart_append, hts]
  by_cases h0 : t = []
  · subst h0
    rw [if_pos rfl, trimStart_cons_not_ws hx]
    rfl
  · rw [if_neg h0]

/-- Parsing the canonical re-serialization `type: description` (no scope). -/
theorem reserialize_none_ok {t d : List Char}
    (htr : trim t = t) (hdr : trim d = d)
    (hct : ':' ∉ t) (hpt : '(' ∉ t) :
    parse_header (trim (reserialize t none d)) = HeaderResult.ok t none d := by
  have hts : trimStart t = t := (trim_eq_self_parts htr).1
  have hfp : findIdx '(' t = none := findIdx_eq_none_of_not_mem hpt
  cases d with
  | nil =>
    have hrw : reserialize t none [] = t ++ ':' :: [' '] := by
      rw [reserialize]; simp
    have h1 : trimStart (t ++ ':' :: [' ']) = t ++ ':' :: [' '] :=
      trimStart_append_not_ws hts (by decide)
    have h2 : trimEnd (t ++ ':' :: [' ']) = t ++ [':'] := by
      have : t ++ ':' :: [' '] = t ++ [':', ' '] := rfl
      rw [this, trimEnd_append, if_neg (by decide)]
      have he : trimEnd [':', ' '] = [':'] := rfl
      rw [he]
    have htrim : trim (reserialize t none []) = t ++ [':'] := by
      rw [hrw, trim, h1, h2]
    rw [htrim]
    have hfc : findIdx ':' (t ++ [':']) = some t.length :=
      findIdx_append_cons [] hct
    have hmeta : (t ++ [':']).take t.length = t := List.take_left t [':']
    have hdrop : (t ++ [':']).drop t.length = [':'] := List.drop_left t [':']
    unfold parse_header
    rw [hfc]
    simp only [hmeta, hdrop, hfp]
    rw [htr]
    rfl
  | cons x d' =>
    have hdne : (x :: d') ≠ [] := by simp
    have hdt : trimEnd (x :: d') = x :: d' := (trim_eq_self_parts hdr).2
    have hds : trimStart (x :: d') = x :: d' := (trim_eq_self_parts hdr).1
    have hrw : reserialize t none (x :: d') = t ++ ':' :: ' ' :: x :: d' := by
      rw [reserialize]; simp
    have h1 : trimStart (t ++ ':' :: ' ' :: x :: d') = t ++ ':' :: ' ' :: x :: d' :=
      trimStart_append_not_ws hts (by decide)
    have h2 : trimEnd (t ++ ':' :: ' ' :: x :: d') = t ++ ':' :: ' ' :: x :: d' := by
      have hsplit : t ++ ':' :: ' ' :: x :: d' = (t ++ [':', ' ']) ++ x :: d' := by
        simp
      rw [hsplit, trimEnd_append, hdt, if_neg hdne]
    have htrim : trim (reserialize t none (x :: d')) = t ++ ':' :: ' ' :: x :: d' := by
      rw [hrw, trim, h1, h2]
    rw [htrim]
    have hfc : findIdx ':' (t ++ ':' :: ' ' :: x :: d') = some t.length :=
      findIdx_append_cons (' ' :: x :: d') hct
    have hmeta : (t ++ ':' :: ' ' :: x :: d').take t.length = t :=
      List.take_left t (':' :: ' ' :: x :: d')
    have hdrop : (t ++ ':' :: ' ' :: x :: d').drop t.length = ':' :: ' ' :: x :: d' :=
      List.drop_left t (':' :: ' ' :: x :: d')
    unfold parse_header
    rw [hfc]
    simp only [hmeta, hdrop, hfp]
    have hdesc : trim ((':' :: ' ' :: x :: d').drop 1) = x :: d' := by
      have : (':' :: ' ' :: x :: d').drop 1 = ' ' :: x :: d' := rfl
      rw [this, trim, trimStart, List.dropWhile_cons_of_pos (by decide)]
      rw [show List.dropWhile isRustWhitespace (x :: d') = trimStart (x :: d') from rfl]
      rw [hds, hdt]
    rw [hdesc, htr]

/-- Parsing a header of the shape `type(scope):tail` directly. -/
theorem parse_header_scope_form {t s tail d : List Char}
    (htr : trim t = t) (hsr : trim s = s) (hsne : s ≠ [])
    (hct : ':' ∉ t) (hcs : ':' ∉ s) (hpt : '(' ∉ t)
    (hrt : ')' ∉ t) (hrs : ')' ∉ s)
    (htail : trim tail = d) :
    parse_header ((t ++ '(' :: (s ++ [')'])) ++ ':' :: tail) =
      HeaderResult.ok t (some s) d := by
  have hAcolon : ':' ∉ t ++ '(' :: (s ++ [')']) := by
    intro hm
    simp only [List.mem_append, List.mem_cons, List.mem_singleton] at hm
    rcases hm with h | h | h | h
    · exact hct h
    · exact absurd h (by decide)
    · exact hcs h
    · exact absurd h (by decide)
  have hfc : findIdx ':' ((t ++ '(' :: (s ++ [')'])) ++ ':' :: tail) =
      some (t ++ '(' :: (s ++ [')'])).length :=
    findIdx_append_cons tail hAcolon
  have hmeta := List.take_left (t ++ '(' :: (s ++ [')'])) (':' :: tail)
  have hdrop := List.drop_left (t ++ '(' :: (s ++ [')'])) (':' :: tail)
  have hfp : findIdx '(' (t ++ '(' :: (s ++ [')'])) = some t.length :=
    findIdx_append_cons (s ++ [')']) hpt
  have hnr : ')' ∉ (t ++ ['(']) ++ s := by
    intro hm
    simp only [List.mem_append, List.mem_singleton] at hm
    rcases hm with (h | h) | h
    · exact hrt h
    · exact absurd h (by decide)
    · exact hrs h
  have hAform : t ++ '(' :: (s ++ [')']) = ((t ++ ['(']) ++ s) ++ ')' :: [] := by
    simp
  have hfr : findIdx ')' (t ++ '(' :: (s ++ [')'])) =
      some ((t ++ ['(']) ++ s).length := by
    rw [hAform]
    exact findIdx_append_cons [] hnr
  have hle : t.length + 1 ≤ ((t ++ ['(']) ++ s).length := by
    simp only [List.length_append, List.length_singleton]
    omega
  have htake_e : (t ++ '(' :: (s ++ [')'])).take ((t ++ ['(']) ++ s).length =
      (t ++ ['(']) ++ s := by
    rw [hAform]
    exact List.take_left _ _
  have hdrop_s : ((t ++ ['(']) ++ s).drop (t.length + 1) = s := by
    have hl1 : (t ++ ['(']).length = t.length + 1 := by simp
    rw [← hl1]
    exact List.drop_left _ _
  have htake_t : (t ++ '(' :: (s ++ [')'])).take t.length = t :=
    List.take_left t ('(' :: (s ++ [')']))
  unfold parse_header
  rw [hfc]
  simp only [hmeta, hdrop, hfp, hfr]
  rw [if_pos hle]
  simp only [htake_e, hdrop_s, hsr]
  rw [if_neg hsne]
  rw [htake_t, htr]
  have hdesc : (':' :: tail).drop 1 = tail := rfl
  rw [hdesc, htail]

/-- Parsing the canonical re-serialization `type(scope): description`. -/
theorem reserialize_some_ok {t s d : List Char}
    (htr : trim t = t) (hsr : trim s = s) (hdr : trim d = d)
    (hsne : s ≠ []) (hct : ':' ∉ t) (hcs : ':' ∉ s) (hpt : '(' ∉ t)
    (hrt : ')' ∉ t) (hrs : ')' ∉ s) :
    parse_header (trim (reserialize t (some s) d)) =
      HeaderResult.ok t (some s) d := by
  have hts : trimStart t = t := (trim_eq_self_parts htr).1
  cases d with
  | nil =>
    have hrw : reserialize t (some s) [] =
        t ++ '(' :: (s ++ [')', ':', ' ']) := by
      rw [reserialize]; simp
    have h1 : trimStart (t ++ '(' :: (s ++ [')', ':', ' '])) =
        t ++ '(' :: (s ++ [')', ':', ' ']) :=
      trimStart_append_not_ws hts (by decide)
    have h2 : trimEnd (t ++ '(' :: (s ++ [')', ':', ' '])) =
        ((t ++ ['(']) ++ s) ++ [')', ':'] := by
      have hform : t ++ '(' :: (s ++ [')', ':', ' ']) =
          ((t ++ ['(']) ++ s) ++ [')', ':', ' '] := by simp
      rw [hform, trimEnd_append, if_neg (by decide)]
      have he : trimEnd [')', ':', ' '] = [')', ':'] := rfl
      rw [he]
    have htrim : trim (reserialize t (some s) []) =
        (t ++ '(' :: (s ++ [')'])) ++ ':' :: [] := by
      rw [hrw, trim, h1, h2]
      simp
    rw [htrim]
    exact parse_header_scope_form htr hsr hsne hct hcs hpt hrt hrs rfl
  | cons x d' =>
    have hdt : trimEnd (x :: d') = x :: d' := (trim_eq_self_parts hdr).2
    have hds : trimStart (x :: d') = x :: d' := (trim_eq_self_parts hdr).1
    have hrw : reserialize t (some s) (x :: d') =
        t ++ '(' :: (s ++ [')', ':', ' '] ++ (x :: d')) := by
      rw [reserialize]; simp
    have h1 : trimStart (t ++ '(' :: (s ++ [')', ':', ' '] ++ (x :: d'))) =
        t ++ '(' :: (s ++ [')', ':', ' '] ++ (x :: d')) :=
      trimStart_append_not_ws hts (by decide)
    have h2 : trimEnd (t ++ '(' :: (s ++ [')', ':', ' '] ++ (x :: d'))) =
        t ++ '(' :: (s ++ [')', ':', ' '] ++ (x :: d')) := by
      have hform : t ++ '(' :: (s ++ [')', ':', ' '] ++ (x :: d')) =
          (((t ++ ['(']) ++ s) ++ [')', ':', ' ']) ++ (x :: d') := by simp
      rw [hform, trimEnd_append, hdt, if_neg (by simp)]
    have htrim : trim (reserialize t (some s) (x :: d')) =
        (t ++ '(' :: (s ++ [')'])) ++ ':' :: (' ' :: x :: d') := by
      rw [hrw, trim, h1, h2]
      simp
    rw [htrim]
    have htail : trim (' ' :: x :: d') = x :: d' := by
      rw [trim, trimStart, List.dropWhile_cons_of_pos (by decide)]
      rw [show List.dropWhile isRustWhitespace (x :: d') =
        trimStart (x :: d') from rfl]
      rw [hds, hdt]
    exact parse_header_scope_form htr hsr hsne hct hcs hpt hrt hrs htail

theorem noNNb_cons_ne {c : Char} (hc : c ≠ '\n') {z : List Char}
    (hz : noNNb z = true) : noNNb (c :: z) = true := by
  cases z with
  | nil => rfl
  | cons x r =>
    rw [noNNb_cons₂, if_neg (fun hcc => hc hcc.1)]
    exact hz

/-- The canonical re-serialization of separator-free components is
separator-free. -/
theorem noNNb_reserialize {t d : List Char} {sc : Option (List Char)}
    (hnt : noNNb t = true) (hnd : noNNb d = true)
    (hns : ∀ s0, sc = some s0 → noNNb s0 = true) :
    noNNb (reserialize t sc d) = true := by
  cases sc with
  | none =>
    have hform : reserialize t none d = t ++ ':' :: ' ' :: d := by
      rw [reserialize]; simp
    rw [hform]
    have hz : noNNb (':' :: ' ' :: d) = true :=
      noNNb_cons_ne (by decide) (noNNb_cons_ne (by decide) hnd)
    exact noNNb_append hz
      (fun x r hx => by injection hx with hx1 _; rw [← hx1]; decide) hnt
  | some s0 =>
    have hform : reserialize t (some s0) d =
        t ++ '(' :: (s0 ++ ')' :: ':' :: ' ' :: d) := by
      rw [reserialize]; simp
    rw [hform]
    have hw : noNNb (')' :: ':' :: ' ' :: d) = true :=
      noNNb_cons_ne (by decide)
        (noNNb_cons_ne (by decide) (noNNb_cons_ne (by decide) hnd))
    have hsw : noNNb (s0 ++ ')' :: ':' :: ' ' :: d) = true :=
      noNNb_append hw
        (fun x r hx => by injection hx with hx1 _; rw [← hx1]; decide)
        (hns s0 rfl)
    have hcsw : noNNb ('(' :: (s0 ++ ')' :: ':' :: ' ' :: d)) = true :=
      noNNb_cons_ne (by decide) hsw
    exact noNNb_append hcsw
      (fun x r hx => by injection hx with hx1 _; rw [← hx1]; decide) hnt

/-! ### Inversion of a successful `parse` -/

theorem parse_ok_shape {input : List Char} {cm : CommitMessage}
    (h : parse input = ParseResult.ok cm) :
    ∃ p0 rest, splitNN input = p0 :: rest ∧
      parse_header (trim p0) =
        HeaderResult.ok cm.commit_type cm.scope cm.description ∧
      cm.body = mkBody rest ∧ cm.footer = (mkFooter rest).1 ∧
      cm.breaking = (mkFooter rest).2 := by
  unfold parse at h
  split at h
  · exact ParseResult.noConfusion h
  · rename_i p0 rest hsp
    split at h
    · exact ParseResult.noConfusion h
    · exact ParseResult.noConfusion h
    · rename_i t sc d hph
      injection h with h1
      refine ⟨p0, rest, hsp, ?_, ?_, ?_, ?_⟩
      · rw [← h1]; exact hph
      · rw [← h1]
      · rw [← h1]
      · rw [← h1]

theorem parse_header_ne_emptyInputErr (hd : List Char) :
    parse_header hd ≠ HeaderResult.err ParseErr.emptyInput := by
  intro h
  unfold parse_header at h
  simp only at h
  split at h
  · exact ParseErr.noConfusion (HeaderResult.err.inj h)
  · split at h
    · exact HeaderResult.noConfusion h
    · split at h
      · exact ParseErr.noConfusion (HeaderResult.err.inj h)
      · split at h
        · split at h
          · exact ParseErr.noConfusion (HeaderResult.err.inj h)
          · exact HeaderResult.noConfusion h
        · exact HeaderResult.noConfusion h

theorem parse_ne_emptyInputErr (input : List Char) :
    parse input ≠ ParseResult.err ParseErr.emptyInput := by
  intro h
  unfold parse at h
  split at h
  · rename_i hsp
    exact splitNN_ne_nil input hsp
  · rename_i p0 rest hsp
    split at h
    · rename_i e hph
      have he := ParseResult.err.inj h
      rw [he] at hph
      exact parse_header_ne_emptyInputErr _ hph
    · exact ParseResult.noConfusion h
    · exact ParseResult.noConfusion h

theorem mkFooter_nil : mkFooter [] = (none, false) := rfl

theorem mkFooter_single (p1 : List Char) : mkFooter [p1] = (none, false) := rfl

theorem mkFooter_cons₂ (p1 p2 : List Char) (q : List (List Char)) :
    mkFooter (p1 :: p2 :: q) =
      if trim p2 = [] then (none, false)
      else (some (trim p2), (trim p2).contains '!') := rfl

/-- Forward evaluation of `parse` once the section split is known. -/
theorem parse_eval {input p0 : List Char} {rest : List (List Char)}
    (hs : splitNN input = p0 :: rest) :
    parse input =
      match parse_header (trim p0) with
      | HeaderResult.err e => ParseResult.err e
      | HeaderResult.panicked => ParseResult.panicked
      | HeaderResult.ok t sc d =>
        ParseResult.ok ⟨t, sc, d, mkBody rest, (mkFooter rest).1,
          (mkFooter rest).2⟩ := by
  unfold parse
  rw [hs]

theorem parse_single {r t : List Char} {sc : Option (List Char)} {d : List Char}
    (hs : splitNN r = [r])
    (hph : parse_header (trim r) = HeaderResult.ok t sc d) :
    parse r = ParseResult.ok ⟨t, sc, d, none, none, false⟩ := by
  rw [parse_eval hs, hph]
  rfl

/-! ### The claims -/

/-- Claim C1 (code_bug evidence): the claim states that `CommitMessage::parse`
never panics, but on the input `)(:x` the header meta part `)(` has its first
`)` before its first `(`, so the Rust slice `meta[start + 1..end]` has
inverted bounds (`2..0`) and the code panics. -/
theorem claim_C1 : parse (toL ")(:x") = ParseResult.panicked := by decide

/-- Claim C2 (code_bug evidence): the claim states that a header whose meta
part contains `(` with no `)` after it fails with `MissingClosingParen`; on
the input `)x(:d` the meta part `)x(` contains such a `(`, yet the code finds
the `)` at index 0 (it searches from the start of meta, not after the `(`)
and panics on the inverted slice instead of returning the error. -/
theorem claim_C2 :
    parse (toL ")x(:d") = ParseResult.panicked ∧
    ParseResult.panicked ≠ ParseResult.err ParseErr.missingClosingParen := by
  decide

/-- Claim C3 counterexample: parsing `:x` succeeds with an empty
`commit_type`, and parsing `f:` succeeds with an empty `description`, so the
claimed non-emptiness invariant fails on both fields. -/
theorem claim_C3_counterexample :
    parse (toL ":x") = ParseResult.ok ⟨[], none, toL "x", none, none, false⟩ ∧
    parse (toL "f:") = ParseResult.ok ⟨toL "f", none, [], none, none, false⟩ := by
  decide

/-- Claim C3 (amended): in every successfully parsed record, `commit_type`
and `description` carry no leading or trailing whitespace (they are fixed
points of `trim`), though either may be empty. -/
theorem claim_C3 (input : List Char) (cm : CommitMessage)
    (h : parse input = ParseResult.ok cm) :
    trim cm.commit_type = cm.commit_type ∧
    trim cm.description = cm.description := by
  obtain ⟨p0, rest, hsp, hph, _, _, _⟩ := parse_ok_shape h
  obtain ⟨h1, h2, _⟩ := parse_header_ok_facts hph
  exact ⟨h1, h2⟩

theorem claim_C3_witness :
    trim (toL "f") = toL "f" ∧ trim (toL "x") = toL "x" :=
  claim_C3 (toL "f: x")
    ⟨toL "f", none, toL "x", none, none, false⟩ (by decide)

/-- Claim C4: in every successfully parsed record, `breaking` is true iff a
third blank-line-delimited section exists, is non-blank after trimming, and
its trimmed text contains the `!` marker; and `breaking` is false whenever
`footer` is `None`. -/
theorem claim_C4 (input : List Char) (cm : CommitMessage)
    (h : parse input = ParseResult.ok cm) :
    (cm.breaking = true ↔
      ∃ p2 q, (splitNN input).drop 2 = p2 :: q ∧ trim p2 ≠ [] ∧
        (trim p2).contains '!' = true) ∧
    (cm.footer = none → cm.breaking = false) := by
  obtain ⟨p0, rest, hsp, hph, hbody, hfoot, hbrk⟩ := parse_ok_shape h
  rw [hsp]
  cases rest with
  | nil =>
    rw [mkFooter_nil] at hfoot hbrk
    refine ⟨?_, fun _ => hbrk⟩
    rw [hbrk]
    simp
  | cons p1 rest' =>
    cases rest' with
    | nil =>
      rw [mkFooter_single] at hfoot hbrk
      refine ⟨?_, fun _ => hbrk⟩
      rw [hbrk]
      simp
    | cons p2 q =>
      rw [mkFooter_cons₂] at hfoot hbrk
      by_cases htp : trim p2 = []
      · rw [if_pos htp] at hfoot hbrk
        have hb : cm.breaking = false := hbrk
        refine ⟨?_, fun _ => hb⟩
        rw [hb]
        constructor
        · intro hfalse; exact Bool.noConfusion hfalse
        · rintro ⟨p2', q', heq, hne, _⟩
          injection heq with he1 _
          exact absurd (he1 ▸ htp) hne
      · rw [if_neg htp] at hfoot hbrk
        have hb : cm.breaking = (trim p2).contains '!' := hbrk
        have hf : cm.footer = some (trim p2) := hfoot
        refine ⟨?_, ?_⟩
        · rw [hb]
          constructor
          · intro hc; exact ⟨p2, q, rfl, htp, hc⟩
          · rintro ⟨p2', q', heq, hne, hc⟩
            injection heq with he1 _
            rw [he1]
            exact hc
        · intro hn
          rw [hf] at hn
          exact Option.noConfusion hn

theorem claim_C4_witness :
    ((⟨toL "t", none, toL "d", some (toL "b"), some (toL "x!"),
        true⟩ : CommitMessage).breaking = true ↔
      ∃ p2 q, (splitNN (toL "t: d\n\nb\n\nx!")).drop 2 = p2 :: q ∧
        trim p2 ≠ [] ∧ (trim p2).contains '!' = true) ∧
    ((⟨toL "t", none, toL "d", some (toL "b"), some (toL "x!"),
        true⟩ : CommitMessage).footer = none →
      (⟨toL "t", none, toL "d", some (toL "b"), some (toL "x!"),
        true⟩ : CommitMessage).breaking = false) :=
  claim_C4 (toL "t: d\n\nb\n\nx!")
    ⟨toL "t", none, toL "d", some (toL "b"), some (toL "x!"), true⟩
    (by decide)

/-- Claim C5: with single line breaks instead of blank lines the whole text
is one header section; parsing succeeds with the text after the first colon
(trimmed) as description, `body = none`, `footer = none`, and
`breaking = false` even though `!` occurs in the text. -/
theorem claim_C5 :
    splitNN (toL "feat(ui): add new button\nThis commit adds a new button to the UI.\nBREAKING CHANGE!: The button API has changed.") =
      [toL "feat(ui): add new button\nThis commit adds a new button to the UI.\nBREAKING CHANGE!: The button API has changed."] ∧
    parse (toL "feat(ui): add new button\nThis commit adds a new button to the UI.\nBREAKING CHANGE!: The button API has changed.") =
      ParseResult.ok ⟨toL "feat", some (toL "ui"),
        toL "add new button\nThis commit adds a new button to the UI.\nBREAKING CHANGE!: The button API has changed.",
        none, none, false⟩ := by
  decide

/-- Claim C6 counterexample: the header `)(): x` contains the empty
parentheses `()` before its first colon, yet parsing panics (inverted slice
`2..0`) instead of failing with `EmptyScope`, because the code looks for the
first `)` anywhere in the meta part. -/
theorem claim_C6_counterexample :
    parse (toL ")(): x") = ParseResult.panicked ∧
    ParseResult.panicked ≠ ParseResult.err ParseErr.emptyScope := by
  decide

/-- Claim C6 (amended): if the header has a colon, the meta part's first `(`
is at index `s`, the meta part's first `)` is at index `e` with `s < e`, and
the text strictly between them trims to empty, then parsing fails with
`EmptyScope` (when a `)` precedes the first `(` the code panics instead);
and a successfully parsed record never carries an empty scope. -/
theorem claim_C6 :
    (∀ (input p0 : List Char) (rest : List (List Char)) (ci s e : Nat),
      splitNN input = p0 :: rest →
      findIdx ':' (trim p0) = some ci →
      findIdx '(' ((trim p0).take ci) = some s →
      findIdx ')' ((trim p0).take ci) = some e →
      s < e →
      trim ((((trim p0).take ci).take e).drop (s + 1)) = [] →
      parse input = ParseResult.err ParseErr.emptyScope) ∧
    (∀ (input : List Char) (cm : CommitMessage) (s0 : List Char),
      parse input = ParseResult.ok cm → cm.scope = some s0 → s0 ≠ []) := by
  constructor
  · intro input p0 rest ci s e hsp hci hs he hlt hsc
    have hph : parse_header (trim p0) =
        HeaderResult.err ParseErr.emptyScope := by
      unfold parse_header
      rw [hci]
      simp only [hs, he]
      rw [if_pos (by omega : s + 1 ≤ e), if_pos hsc]
    rw [parse_eval hsp, hph]
  · intro input cm s0 h h0
    obtain ⟨p0, rest, hsp, hph, _, _, _⟩ := parse_ok_shape h
    obtain ⟨_, _, _, _, hscf⟩ := parse_header_ok_facts hph
    exact (hscf s0 h0).2.1

theorem claim_C6_witness :
    parse (toL "x(): d") = ParseResult.err ParseErr.emptyScope ∧
    toL "ui" ≠ ([] : List Char) := by
  constructor
  · exact claim_C6.1 (toL "x(): d") (toL "x(): d") [] 3 1 2 (by decide)
      (by decide) (by decide) (by decide) (by decide) (by decide)
  · exact claim_C6.2 (toL "f(ui): d")
      ⟨toL "f", some (toL "ui"), toL "d", none, none, false⟩
      (toL "ui") (by decide) rfl

/-- Claim C7: re-serializing the header of a successfully parsed record
canonically (`type(scope): description`, or `type: description` without a
scope) and parsing again succeeds and returns the same `commit_type`,
`scope`, and `description`. -/
theorem claim_C7 (input : List Char) (cm : CommitMessage)
    (h : parse input = ParseResult.ok cm) :
    ∃ cm', parse (reserialize cm.commit_type cm.scope cm.description) =
        ParseResult.ok cm' ∧
      cm'.commit_type = cm.commit_type ∧ cm'.scope = cm.scope ∧
      cm'.description = cm.description := by
  obtain ⟨p0, rest, hsp, hph, _, _, _⟩ := parse_ok_shape h
  have hnn0 : noNNb p0 = true := splitNN_head_noNNb hsp
  have hnnh : noNNb (trim p0) = true := noNNb_trim hnn0
  obtain ⟨hnt, hnd, hns⟩ := parse_header_ok_noNNb hph hnnh
  obtain ⟨htr, hdr, hct, hpt, hscf⟩ := parse_header_ok_facts hph
  have hph' : parse_header
      (trim (reserialize cm.commit_type cm.scope cm.description)) =
      HeaderResult.ok cm.commit_type cm.scope cm.description := by
    cases hsc : cm.scope with
    | none =>
      exact reserialize_none_ok htr hdr hct hpt
    | some s0 =>
      obtain ⟨hsr, hsne, hcs, hrs, hrt⟩ := hscf s0 hsc
      exact reserialize_some_ok htr hsr hdr hsne hct hcs hpt hrt hrs
  have hnnr : noNNb (reserialize cm.commit_type cm.scope cm.description) = true :=
    noNNb_reserialize hnt hnd (fun s0 h0 => hns s0 h0)
  have hsingle := splitNN_eq_single hnnr
  exact ⟨⟨cm.commit_type, cm.scope, cm.description, none, none, false⟩,
    parse_single hsingle hph', rfl, rfl, rfl⟩

theorem claim_C7_witness :
    ∃ cm', parse (reserialize (toL "f") (some (toL "ui")) (toL "d")) =
        ParseResult.ok cm' ∧
      cm'.commit_type = toL "f" ∧ cm'.scope = some (toL "ui") ∧
      cm'.description = toL "d" :=
  claim_C7 (toL "f(ui): d")
    ⟨toL "f", some (toL "ui"), toL "d", none, none, false⟩ (by decide)

/-- Claim C8: only the first colon of the trimmed header separates meta from
description: whenever parsing succeeds, the returned description is exactly
the trimmed text strictly after the first colon of the trimmed first section
(so any further colons or parentheses stay in the description verbatim). -/
theorem claim_C8 (input : List Char) (cm : CommitMessage)
    (h : parse input = ParseResult.ok cm) :
    ∃ p0 rest ci, splitNN input = p0 :: rest ∧
      findIdx ':' (trim p0) = some ci ∧
      cm.description = trim (((trim p0).drop ci).drop 1) := by
  obtain ⟨p0, rest, hsp, hph, _, _, _⟩ := parse_ok_shape h
  obtain ⟨ci, hci, hdeq, _⟩ := parse_header_ok_shape hph
  exact ⟨p0, rest, ci, hsp, hci, hdeq⟩

theorem claim_C8_witness :
    ∃ p0 rest ci, splitNN (toL "f: a:b(c)") = p0 :: rest ∧
      findIdx ':' (trim p0) = some ci ∧
      (⟨toL "f", none, toL "a:b(c)", none, none,
        false⟩ : CommitMessage).description =
        trim (((trim p0).drop ci).drop 1) :=
  claim_C8 (toL "f: a:b(c)")
    ⟨toL "f", none, toL "a:b(c)", none, none, false⟩ (by decide)

/-- Claim C9: `get_changelog` always returns the same constant record; its
`types` and `scopes` sequences are the declared ones, in order and
duplicate-free, and `breaking_marker` is the string `!`. -/
theorem claim_C9 :
    get_changelog = ⟨TYPES, SCOPES, BREAKING_CHANGE_MARKER⟩ ∧
    get_changelog.types = TYPES ∧ get_changelog.scopes = SCOPES ∧
    get_changelog.breaking_marker = "!" ∧
    get_changelog.types.Nodup ∧ get_changelog.scopes.Nodup := by
  refine ⟨rfl, rfl, rfl, rfl, ?_, ?_⟩ <;> decide

/-- Claim C10: splitting any input on the blank-line separator yields at
least one section, so the `EmptyInput` error branch is unreachable and
`parse` never returns it; the empty string fails with `MissingColon`. -/
theorem claim_C10 :
    (∀ input : List Char, ∃ p0 rest, splitNN input = p0 :: rest) ∧
    (∀ input : List Char,
      parse input ≠ ParseResult.err ParseErr.emptyInput) ∧
    parse [] = ParseResult.err ParseErr.missingColon := by
  refine ⟨?_, ?_, by decide⟩
  · intro input
    cases hsp : splitNN input with
    | nil => exact absurd hsp (splitNN_ne_nil input)
    | cons p0 rest => exact ⟨p0, rest, rfl⟩
  · exact parse_ne_emptyInputErr

theorem claim_C10_witness :
    (∃ p0 rest, splitNN (toL "a") = p0 :: rest) ∧
    parse (toL "a") ≠ ParseResult.err ParseErr.emptyInput :=
  ⟨claim_C10.1 (toL "a"), claim_C10.2.1 (toL "a")⟩

end Mkcmt
